import Mathlib

/-!
Verification of the diff core (`src/diff/mod.rs`): line diffing, edit-script
coalescing and context-window hunk assembly, shallowly embedded in Lean.

Machine integers (`usize`/`u64`) are modelled as `Nat`; `saturating_sub` is
`Nat.sub` (which truncates at zero), while the three raw `usize` subtractions
in `to_patch` (`a_text.len() - 1`, `end1 - start1`, `end2 - start2`) are
guarded explicitly, with `to_patch` returning `Option` and `none` marking the
arithmetic-underflow fault those sites could raise.  Rust's
`slice::get(range)` returns `None` (hence zero lines after `flatten`) when the
requested range exceeds the slice, which `sliceGet` models by returning `[]`.
-/

namespace Diffy

/-- A line of a hunk body: `Line::Context`, `Line::Delete` or `Line::Insert`
(`patch.rs` is a plain data carrier; the variants are fixed by the spec's
data model and by the call sites in `diff/mod.rs`). -/
inductive Line where
  | context (s : String)
  | delete (s : String)
  | insert (s : String)
deriving DecidableEq, Repr

/-- `HunkRange { start, len }` as built by `HunkRange::new(start, len)`. -/
structure HunkRange where
  start : Nat
  len : Nat
deriving DecidableEq, Repr

/-- `Hunk { old_range, new_range, lines }` as built by `Hunk::new`. -/
structure Hunk where
  old_range : HunkRange
  new_range : HunkRange
  lines : List Line
deriving DecidableEq, Repr

/-- `Patch { original, modified, hunks }` as built by
`Patch::new(original, modified, hunks)`; `to_patch` passes `None, None`. -/
structure Patch where
  original : Option String
  modified : Option String
  hunks : List Hunk
deriving DecidableEq, Repr

/-- `EditRange { old: Range<usize>, new: Range<usize> }` — a coalesced change
block; `ops::Range` start/end pairs are flattened into four fields. -/
structure EditRange where
  oldStart : Nat
  oldEnd : Nat
  newStart : Nat
  newEnd : Nat
deriving DecidableEq, Repr

/-- A tagged diff range (`DiffRange::Equal/Delete/Insert`).  The only data the
code in `diff/mod.rs` reads from a range is its length (`range.len()`), and
for `Equal` the two sides' lengths separately, so ranges are embedded by
their lengths. -/
inductive DiffRange where
  | equal (len1 len2 : Nat)
  | delete (len : Nat)
  | insert (len : Nat)
deriving DecidableEq, Repr

/-- Strip one leading `'\r'` (the line terminator's carriage return, since
the accumulator is reversed). -/
def stripCR : List Char → List Char
  | '\r' :: acc2 => acc2
  | acc => acc

/-- One step of Rust `str::lines` iteration over the remaining characters:
`acc` holds the current (unterminated) line reversed; a `'\n'` terminates the
line, stripping one `'\r'` immediately before it; a final unterminated
nonempty line is emitted without `'\r'` stripping. -/
def linesAux : List Char → List Char → List (List Char)
  | acc, [] => if acc.isEmpty then [] else [acc.reverse]
  | acc, ch :: rest =>
    if ch = '\n' then (stripCR acc).reverse :: linesAux [] rest
    else linesAux (ch :: acc) rest

/-- Rust `str::lines` over a string: split at `'\n'` or `"\r\n"`, no empty
final line for a trailing terminator. -/
def rustLines (s : String) : List String :=
  (linesAux [] s.data).map fun l => String.mk l

/-- Index of the first occurrence of `s` in a table (the id the classifier
assigned to an interned line: its insertion position). -/
def firstIdx : List String → String → Nat
  | [], _ => 0
  | t :: rest, s => if t = s then 0 else firstIdx rest s + 1

/-- `Classifier { next_id, unique_ids }`: the `HashMap<&str, u64>` together
with its counter is represented by the insertion-ordered list of interned
keys.  An occupied entry returns the stored id — the key's insertion
position, `firstIdx` — and a vacant entry stores and returns `next_id`,
which always equals the list's length (the counter is bumped exactly when a
key is inserted). -/
def Classifier.classify (tbl : List String) (record : String) :
    List String × Nat :=
  if record ∈ tbl then (tbl, firstIdx tbl record)
  else (tbl ++ [record], tbl.length)

/-- Classify each line in order, threading the classifier table (the
`map/unzip` over `lines` in `diff_lines`). -/
def classifyList (tbl : List String) : List String → List String × List Nat
  | [] => (tbl, [])
  | s :: rest =>
    let p := Classifier.classify tbl s
    let q := classifyList p.1 rest
    (q.1, p.2 :: q.2)

/-- Number of Delete/Insert ranges of a candidate script (each of length 1),
i.e. its edit cost. -/
def scriptCost : List DiffRange → Nat
  | [] => 0
  | .equal _ _ :: rest => scriptCost rest
  | .delete _ :: rest => scriptCost rest + 1
  | .insert _ :: rest => scriptCost rest + 1

/-- The inner recursion of the modelled engine: `prev` is the engine applied
to the tail of the old side, `x` its head, and the match is on the new
side.  (Currying keeps both recursions structural.) -/
def myersGo (prev : List Nat → List DiffRange) (x : Nat) :
    List Nat → List DiffRange
  | [] => .delete 1 :: prev []
  | y :: ys =>
    if x = y then
      .equal 1 1 :: prev ys
    else
      let dl := .delete 1 :: prev (y :: ys)
      let il := .insert 1 :: myersGo prev x ys
      if scriptCost dl ≤ scriptCost il then dl else il

/-- Modelled from the spec: `myers::diff` (src/diff/myers.rs is not among the
sources).  §4.1 contracts a shortest edit script — an ordered Equal/Delete/
Insert range list that is minimal in total Delete+Insert count and satisfies
the coverage invariant; the search strategy is explicitly an implementation
choice.  This model emits unit-length ranges by direct minimal-cost
recursion (equal heads are always matched, ties prefer the delete branch,
matching Myers's forward preference); the cleanup pass merges the unit
ranges into the spec's canonical maximal ranges. -/
def myersDiff : List Nat → List Nat → List DiffRange
  | [] => fun ys => ys.map fun _ => .insert 1
  | x :: xs => myersGo (myersDiff xs) x

/-- Emit the pending Delete/Insert totals of a change run in canonical
Delete-before-Insert order, dropping empty ranges. -/
def emitDI (d i : Nat) : List DiffRange :=
  (if 0 < d then [DiffRange.delete d] else []) ++
    (if 0 < i then [DiffRange.insert i] else [])

/-- Prepend an Equal range, merging with an adjacent following Equal. -/
def pushEq (l1 l2 : Nat) : List DiffRange → List DiffRange
  | .equal m1 m2 :: rest => .equal (l1 + m1) (l2 + m2) :: rest
  | rest => .equal l1 l2 :: rest

/-- Modelled from the spec: `cleanup::compact` (src/diff/cleanup.rs is not
among the sources).  §4.2 contracts an in-place canonicalisation: eliminate
zero-length ranges, merge adjacent same-tag ranges, and order Delete before
Insert at each change point.  `d`/`i` accumulate the Delete/Insert totals of
the current change run; a (nonzero) Equal range flushes the run. -/
def compactAux : List DiffRange → Nat → Nat → List DiffRange
  | [], d, i => emitDI d i
  | .delete l :: rest, d, i => compactAux rest (d + l) i
  | .insert l :: rest, d, i => compactAux rest d (i + l)
  | .equal l1 l2 :: rest, d, i =>
    if l1 = 0 ∧ l2 = 0 then compactAux rest d i
    else emitDI d i ++ pushEq l1 l2 (compactAux rest 0 0)

/-- Modelled from the spec: the cleanup pass entry point. -/
def compact (solution : List DiffRange) : List DiffRange :=
  compactAux solution 0 0

/-- The loop body of `build_edit_script`: `idx_a`/`idx_b` are the absolute
cursors, `script` the currently open change block. -/
def buildGo (idx_a idx_b : Nat) (script : Option EditRange) :
    List DiffRange → List EditRange
  | [] =>
    match script with
    | some s => [s]
    | none => []
  | .equal l1 l2 :: rest =>
    (match script with
      | some s => [s]
      | none => []) ++ buildGo (idx_a + l1) (idx_b + l2) none rest
  | .delete l :: rest =>
    (match script with
      | some s => buildGo (idx_a + l) idx_b (some { s with oldEnd := s.oldEnd + l }) rest
      | none =>
        buildGo (idx_a + l) idx_b
          (some ⟨idx_a, idx_a + l, idx_b, idx_b⟩) rest)
  | .insert l :: rest =>
    (match script with
      | some s => buildGo idx_a (idx_b + l) (some { s with newEnd := s.newEnd + l }) rest
      | none =>
        buildGo idx_a (idx_b + l)
          (some ⟨idx_a, idx_a, idx_b, idx_b + l⟩) rest)

/-- `build_edit_script`: collapse a compacted range list into coalesced
change blocks with absolute old/new spans. -/
def build_edit_script (solution : List DiffRange) : List EditRange :=
  buildGo 0 0 none solution

/-- `DiffLines { a_text, b_text, edit_script }`. -/
structure DiffLines where
  a_text : List String
  b_text : List String
  edit_script : List EditRange
deriving DecidableEq, Repr

/-- `diff_lines`: split into lines, intern through the classifier (old's
lines before new's), run the engine and cleanup on the id sequences, and
coalesce into the edit script. -/
def diff_lines (old new : String) : DiffLines :=
  let old_lines := rustLines old
  let new_lines := rustLines new
  let p := classifyList [] old_lines
  let q := classifyList p.1 new_lines
  let solution := compact (myersDiff p.2 q.2)
  ⟨old_lines, new_lines, build_edit_script solution⟩

/-- Rust `slice.get(s..e)` flattened: the sub-range when `s <= e && e <= len`,
zero elements otherwise. -/
def sliceGet (l : List String) (s e : Nat) : List String :=
  if s ≤ e ∧ e ≤ l.length then (l.drop s).take (e - s) else []

/-- `calc_end` from `to_patch`: clamp the post-context symmetrically by the
lines remaining past the script end on each side (`saturating_sub`). -/
def calc_end (context_len text1_len text2_len script1_end script2_end : Nat) :
    Nat × Nat :=
  let post_context_len :=
    min context_len (min (text1_len - script1_end) (text2_len - script2_end))
  (script1_end + post_context_len, script2_end + post_context_len)

/-- The inner `loop` of `to_patch`: push the current block's Delete/Insert
lines, then greedily merge the following block when its clamped pre-context
start falls before the current end.  Returns the accumulated lines, the
final `end1`/`end2`, the final merged block and the number of blocks merged
in; `none` models the `usize` underflow of `a_text.len() - 1` when
`a_text` is empty. -/
def hunkLoop (aText bText : List String) (c : Nat) :
    EditRange → List EditRange → Nat → Nat → List Line →
      Option (List Line × Nat × Nat × EditRange × Nat)
  | script, rest, end1, end2, lines =>
    let lines := lines
      ++ (sliceGet aText script.oldStart script.oldEnd).map Line.delete
      ++ (sliceGet bText script.newStart script.newEnd).map Line.insert
    match rest with
    | [] => some (lines, end1, end2, script, 0)
    | s :: rest' =>
      if aText.length = 0 then none
      else
        let start1_next := min s.oldStart (aText.length - 1) - c
        if start1_next < end1 then
          let gap :=
            (List.range' script.oldEnd (s.oldStart - script.oldEnd)).zip
              (List.range' script.newEnd (s.newStart - script.newEnd))
          let lines := lines
            ++ gap.filterMap fun p => (bText.get? p.2).map Line.context
          let e := calc_end c aText.length bText.length s.oldEnd s.newEnd
          match hunkLoop aText bText c s rest' e.1 e.2 lines with
          | none => none
          | some (ls, e1, e2, last, n) => some (ls, e1, e2, last, n + 1)
        else
          some (lines, end1, end2, script, 0)

/-- The outer `while` of `to_patch`: one hunk per iteration.  `none` models a
`usize` underflow at `len1 = end1 - start1` / `len2 = end2 - start2` or a
fault propagated from the inner loop.  Each iteration consumes the hunk's
first block and the `n` blocks merged into it, so the number of blocks
bounds the iteration count; `fuel` makes that bound explicit and keeps the
recursion structural (exhaustion is unreachable when `fuel` is at least the
list length, see `patchLoopF_fuel`). -/
def patchLoopF (aText bText : List String) (c : Nat) :
    Nat → List EditRange → Option (List Hunk)
  | _, [] => some []
  | 0, _ :: _ => none
  | fuel + 1, script :: rest =>
    let start1 := script.oldStart - c
    let start2 := script.newStart - c
    let e := calc_end c aText.length bText.length script.oldEnd script.newEnd
    let pre := (sliceGet bText start2 script.newStart).map Line.context
    match hunkLoop aText bText c script rest e.1 e.2 pre with
    | none => none
    | some (lines, end1, end2, last, n) =>
      let lines := lines ++ (sliceGet bText last.newEnd end2).map Line.context
      if start1 ≤ end1 ∧ start2 ≤ end2 then
        let len1 := end1 - start1
        let old_range : HunkRange :=
          ⟨if 0 < len1 then start1 + 1 else start1, len1⟩
        let len2 := end2 - start2
        let new_range : HunkRange :=
          ⟨if 0 < len2 then start2 + 1 else start2, len2⟩
        match patchLoopF aText bText c fuel (rest.drop n) with
        | none => none
        | some hunks => some (⟨old_range, new_range, lines⟩ :: hunks)
      else none

/-- The outer loop entered with its iteration bound. -/
def patchLoop (aText bText : List String) (c : Nat)
    (ss : List EditRange) : Option (List Hunk) :=
  patchLoopF aText bText c ss.length ss

/-- `DiffLines::to_patch`. -/
def DiffLines.to_patch (d : DiffLines) (context_len : Nat) : Option Patch :=
  (patchLoop d.a_text d.b_text context_len d.edit_script).map fun hs =>
    ⟨none, none, hs⟩

/-- The maximal leading run of Delete/Insert ranges. -/
def takeRun : List DiffRange → List DiffRange
  | .delete l :: rest => .delete l :: takeRun rest
  | .insert l :: rest => .insert l :: takeRun rest
  | _ => []

/-- Total length of the Delete ranges of a list. -/
def sumDel : List DiffRange → Nat
  | [] => 0
  | .delete l :: rest => l + sumDel rest
  | _ :: rest => sumDel rest

/-- Total length of the Insert ranges of a list. -/
def sumIns : List DiffRange → Nat
  | [] => 0
  | .insert l :: rest => l + sumIns rest
  | _ :: rest => sumIns rest

/-- Reference semantics of `build_edit_script`, written from the claimed
contract: scan once with absolute cursors `ia`/`ib`; an Equal range advances
both cursors by its side lengths; each maximal uninterrupted Delete/Insert
run yields one block whose old span covers the run's Delete total and whose
new span covers its Insert total, both starting at the cursor pair. -/
def editScriptSpec (ia ib : Nat) : List DiffRange → List EditRange
  | [] => []
  | .equal l1 l2 :: rest => editScriptSpec (ia + l1) (ib + l2) rest
  | .delete l :: rest =>
    let run := takeRun (.delete l :: rest)
    ⟨ia, ia + sumDel run, ib, ib + sumIns run⟩ ::
      editScriptSpec (ia + sumDel run) (ib + sumIns run)
        ((DiffRange.delete l :: rest).drop run.length)
  | .insert l :: rest =>
    let run := takeRun (.insert l :: rest)
    ⟨ia, ia + sumDel run, ib, ib + sumIns run⟩ ::
      editScriptSpec (ia + sumDel run) (ib + sumIns run)
        ((DiffRange.insert l :: rest).drop run.length)
termination_by l => l.length
decreasing_by
  all_goals
    simp only [takeRun, List.length_cons, List.length_drop]
    omega

/-- A range of nonzero length (for Equal, nonempty on at least one side). -/
def rangeNonZero : DiffRange → Prop
  | .equal l1 l2 => 0 < l1 ∨ 0 < l2
  | .delete l => 0 < l
  | .insert l => 0 < l

instance : DecidablePred rangeNonZero := fun r => by
  cases r <;> simp only [rangeNonZero] <;> infer_instance

/-- Old-side length consumed by a range list (Equal old sides + Deletes). -/
def oldTotal : List DiffRange → Nat
  | [] => 0
  | .equal l1 _ :: rest => l1 + oldTotal rest
  | .delete l :: rest => l + oldTotal rest
  | .insert _ :: rest => oldTotal rest

/-- New-side length consumed by a range list (Equal new sides + Inserts). -/
def newTotal : List DiffRange → Nat
  | [] => 0
  | .equal _ l2 :: rest => l2 + newTotal rest
  | .delete _ :: rest => newTotal rest
  | .insert l :: rest => l + newTotal rest

/-- A change block with ordered spans inside the two texts. -/
def blockBounded (aL bL : Nat) (s : EditRange) : Prop :=
  s.oldStart ≤ s.oldEnd ∧ s.oldEnd ≤ aL ∧ s.newStart ≤ s.newEnd ∧ s.newEnd ≤ bL

/-- Well-formed edit script: bounded blocks, strictly separated on both
sides (consecutive blocks have at least one unchanged line between them). -/
def wfChain (aL bL : Nat) : List EditRange → Prop
  | [] => True
  | s :: rest =>
    blockBounded aL bL s ∧
    (∀ t ∈ rest.head?, s.oldEnd < t.oldStart ∧ s.newEnd < t.newStart) ∧
    wfChain aL bL rest

/-- The post-context length `calc_end` grants a block. -/
def postLen (aL bL c : Nat) (s : EditRange) : Nat :=
  min c (min (aL - s.oldEnd) (bL - s.newEnd))

/-- The merge test of `to_patch` between block `s` and the following block
`t` (the code evaluates it with `end1` equal to `s`'s clamped end). -/
def mergeCond (aL bL c : Nat) (s t : EditRange) : Prop :=
  min t.oldStart (aL - 1) - c < s.oldEnd + postLen aL bL c s

instance : ∀ aL bL c s t, Decidable (mergeCond aL bL c s t) :=
  fun _ _ _ _ _ => Nat.decLt _ _

/-- Number of consecutive following blocks the inner loop merges into the
hunk opened at `s`. -/
def mergeRun (aL bL c : Nat) : EditRange → List EditRange → Nat
  | _, [] => 0
  | s, t :: rest =>
    if mergeCond aL bL c s t then mergeRun aL bL c t rest + 1 else 0

/-- Number of consecutive block pairs the merge test rejects. -/
def countSplits (aL bL c : Nat) : List EditRange → Nat
  | s :: t :: rest =>
    (if mergeCond aL bL c s t then 0 else 1) + countSplits aL bL c (t :: rest)
  | _ => 0

/-- Reference hunk count: one hunk per rejected boundary, plus one. -/
def numHunks (aL bL c : Nat) (ss : List EditRange) : Nat :=
  if ss.isEmpty then 0 else countSplits aL bL c ss + 1

/-- Number of hunks `to_patch` produces for a pair of texts (0 for the fault
value, which never occurs). -/
def hunkCount (old new : String) (c : Nat) : Nat :=
  (((diff_lines old new).to_patch c).map fun p => p.hunks.length).getD 0

/-- A unit range as produced by the modelled engine. -/
def unitRange (r : DiffRange) : Prop :=
  r = .equal 1 1 ∨ r = .delete 1 ∨ r = .insert 1

/-- A canonical compacted range: nonzero, and balanced for Equal. -/
def goodRange : DiffRange → Prop
  | .equal l1 l2 => 0 < l1 ∧ l1 = l2
  | .delete l => 0 < l
  | .insert l => 0 < l

/-! ## The edit-script builder computes the run-based reference semantics -/

theorem buildGo_eq_spec (l : List DiffRange) :
    (∀ ia ib, buildGo ia ib none l = editScriptSpec ia ib l) ∧
    (∀ ia ib s, s.oldEnd = ia → s.newEnd = ib →
      buildGo ia ib (some s) l =
        ⟨s.oldStart, ia + sumDel (takeRun l), s.newStart,
            ib + sumIns (takeRun l)⟩ ::
          editScriptSpec (ia + sumDel (takeRun l)) (ib + sumIns (takeRun l))
            (l.drop (takeRun l).length)) := by
  induction l with
  | nil =>
    refine ⟨fun ia ib => by simp [buildGo, editScriptSpec],
      fun ia ib s h1 h2 => ?_⟩
    simp only [buildGo, takeRun, sumDel, sumIns, List.drop, editScriptSpec]
    rw [← h1, ← h2]
    simp
  | cons r rest ih =>
    obtain ⟨ihn, ihs⟩ := ih
    constructor
    · intro ia ib
      match r with
      | .equal l1 l2 =>
        simp only [buildGo, List.nil_append, editScriptSpec]
        exact ihn _ _
      | .delete dl =>
        simp only [buildGo]
        rw [ihs (ia + dl) ib ⟨ia, ia + dl, ib, ib⟩ rfl rfl]
        simp only [editScriptSpec, takeRun, sumDel, sumIns, List.length_cons,
          List.drop_succ_cons, Nat.add_assoc]
      | .insert il =>
        simp only [buildGo]
        rw [ihs ia (ib + il) ⟨ia, ia, ib, ib + il⟩ rfl rfl]
        simp only [editScriptSpec, takeRun, sumDel, sumIns, List.length_cons,
          List.drop_succ_cons, Nat.add_assoc]
    · intro ia ib s h1 h2
      match r with
      | .equal l1 l2 =>
        simp only [buildGo, List.cons_append, List.nil_append, editScriptSpec,
          takeRun, sumDel, sumIns, List.length_nil, List.drop_zero]
        rw [ihn (ia + l1) (ib + l2), ← h1, ← h2]
        simp only [Nat.add_zero, editScriptSpec]
      | .delete dl =>
        simp only [buildGo]
        rw [ihs (ia + dl) ib { s with oldEnd := s.oldEnd + dl }
          (by simp [h1]) (by simp [h2])]
        simp only [takeRun, sumDel, sumIns, List.length_cons,
          List.drop_succ_cons, Nat.add_assoc]
      | .insert il =>
        simp only [buildGo]
        rw [ihs ia (ib + il) { s with newEnd := s.newEnd + il }
          (by simp [h1]) (by simp [h2])]
        simp only [takeRun, sumDel, sumIns, List.length_cons,
          List.drop_succ_cons, Nat.add_assoc]

theorem build_eq_spec (solution : List DiffRange) :
    build_edit_script solution = editScriptSpec 0 0 solution :=
  (buildGo_eq_spec solution).1 0 0

theorem specBlocks_change :
    ∀ (n : Nat) (l : List DiffRange), l.length ≤ n → ∀ ia ib,
      (∀ r ∈ l, rangeNonZero r) →
      ∀ b ∈ editScriptSpec ia ib l,
        b.oldStart < b.oldEnd ∨ b.newStart < b.newEnd := by
  intro n
  induction n with
  | zero =>
    intro l hl ia ib _ b hb
    rw [List.length_eq_zero.mp (Nat.le_zero.mp hl)] at hb
    simp [editScriptSpec] at hb
  | succ n ih =>
    intro l hl ia ib hnz b hb
    match l with
    | [] => simp [editScriptSpec] at hb
    | .equal l1 l2 :: rest =>
      simp only [editScriptSpec] at hb
      refine ih rest ?_ _ _
        (fun r hr => hnz r (List.mem_cons_of_mem _ hr)) b hb
      simp only [List.length_cons] at hl
      omega
    | .delete dl :: rest =>
      simp only [editScriptSpec, takeRun, List.mem_cons] at hb
      rcases hb with rfl | hb
      · left
        have hdl : 0 < dl := hnz _ (List.mem_cons_self _ _)
        simp only [sumDel]
        omega
      · refine ih _ ?_ _ _ ?_ b hb
        · simp only [List.length_cons, List.length_drop] at hl ⊢
          omega
        · intro r hr
          exact hnz r (List.mem_of_mem_drop hr)
    | .insert il :: rest =>
      simp only [editScriptSpec, takeRun, List.mem_cons] at hb
      rcases hb with rfl | hb
      · right
        have hil : 0 < il := hnz _ (List.mem_cons_self _ _)
        simp only [sumIns]
        omega
      · refine ih _ ?_ _ _ ?_ b hb
        · simp only [List.length_cons, List.length_drop] at hl ⊢
          omega
        · intro r hr
          exact hnz r (List.mem_of_mem_drop hr)

/-- C6: for every tagged-diff-range list, `build_edit_script` produces, in
scan order, one block per maximal Delete/Insert run, whose absolute old span
covers exactly the run's Delete ranges and whose absolute new span covers
exactly the run's Insert ranges, with Equal ranges only advancing the two
absolute cursors — i.e. it computes the run-based reference semantics
`editScriptSpec`. -/
theorem build_edit_script_eq_editScriptSpec (solution : List DiffRange) :
    build_edit_script solution = editScriptSpec 0 0 solution :=
  build_eq_spec solution

/-- C7: on input with no zero-length range, every change block has a
non-empty old span or a non-empty new span. -/
theorem build_edit_script_block_not_both_empty (solution : List DiffRange)
    (h : ∀ r ∈ solution, rangeNonZero r) :
    ∀ b ∈ build_edit_script solution,
      b.oldStart < b.oldEnd ∨ b.newStart < b.newEnd := by
  rw [build_eq_spec]
  exact specBlocks_change solution.length solution le_rfl 0 0 h

/-- Witness for C7 at a concrete compacted list. -/
theorem build_edit_script_block_not_both_empty_witness :
    (∀ r ∈ [DiffRange.delete 2, DiffRange.equal 1 1, DiffRange.insert 3],
      rangeNonZero r) ∧
    ∀ b ∈ build_edit_script
        [DiffRange.delete 2, DiffRange.equal 1 1, DiffRange.insert 3],
      b.oldStart < b.oldEnd ∨ b.newStart < b.newEnd :=
  ⟨by decide, build_edit_script_block_not_both_empty _ (by decide)⟩

/-! ## Concrete scenarios and patch labels -/

/-- C1 counterexample: on `old = "a\nb\n"`, `new = "a\nb\nc\n"`,
`context_len = 0`, the single hunk's old range is `(2, 0)`, so the claimed
`(0, 0)` convention for a side contributing no lines fails on this very
hunk list. -/
theorem zero_len_hunk_range_counterexample :
    ((diff_lines "a\nb\n" "a\nb\nc\n").to_patch 0).map Patch.hunks =
      some [⟨⟨2, 0⟩, ⟨3, 1⟩, [Line.insert "c"]⟩] ∧
    ¬ (∀ h ∈ [Hunk.mk ⟨2, 0⟩ ⟨3, 1⟩ [Line.insert "c"]],
        (h.old_range.len = 0 → h.old_range.start = 0) ∧
        (h.new_range.len = 0 → h.new_range.start = 0)) := by
  constructor
  · decide
  · decide

/-- C1 amended: a hunk side contributing no lines has length 0 but its start
field is the context-clamped 0-based start of the change (0 only when that
position is 0); in the scenario the result is one hunk with old range
`(2, 0)`, new range `(3, 1)` and lines `[Insert "c"]`. -/
theorem zero_len_hunk_range_amended :
    (diff_lines "a\nb\n" "a\nb\nc\n").to_patch 0 =
      some ⟨none, none, [⟨⟨2, 0⟩, ⟨3, 1⟩, [Line.insert "c"]⟩]⟩ := by
  decide

/-- C8: `old = "a\nb\nc\n"`, `new = "a\nx\nc\n"`, `context_len = 1`
yields exactly one hunk with old range `(1, 3)`, new range `(1, 3)` and
lines `[Context "a", Delete "b", Insert "x", Context "c"]`. -/
theorem concrete_one_hunk_context_one :
    (diff_lines "a\nb\nc\n" "a\nx\nc\n").to_patch 1 =
      some ⟨none, none, [⟨⟨1, 3⟩, ⟨1, 3⟩,
        [Line.context "a", Line.delete "b", Line.insert "x",
          Line.context "c"]⟩]⟩ := by
  decide

/-- C9: every patch `to_patch` returns carries no old-file and no new-file
label. -/
theorem to_patch_no_labels (d : DiffLines) (c : Nat) (p : Patch)
    (h : d.to_patch c = some p) : p.original = none ∧ p.modified = none := by
  unfold DiffLines.to_patch at h
  cases hp : patchLoop d.a_text d.b_text c d.edit_script with
  | none => rw [hp] at h; simp at h
  | some hs =>
    rw [hp] at h
    injection h with h
    rw [← h]
    exact ⟨rfl, rfl⟩

/-- Witness for C9 at a concrete diff. -/
theorem to_patch_no_labels_witness :
    (diff_lines "a\n" "b\n").to_patch 0 =
      some ⟨none, none, [⟨⟨1, 1⟩, ⟨1, 1⟩,
        [Line.delete "a", Line.insert "b"]⟩]⟩ ∧
    (Patch.original ⟨none, none, [⟨⟨1, 1⟩, ⟨1, 1⟩,
        [Line.delete "a", Line.insert "b"]⟩]⟩ = none ∧
      Patch.modified ⟨none, none, [⟨⟨1, 1⟩, ⟨1, 1⟩,
        [Line.delete "a", Line.insert "b"]⟩]⟩ = none) :=
  ⟨by decide,
    to_patch_no_labels (diff_lines "a\n" "b\n") 0
      ⟨none, none, [⟨⟨1, 1⟩, ⟨1, 1⟩, [Line.delete "a", Line.insert "b"]⟩]⟩
      (by decide)⟩

/-! ## Properties of the modelled engine and cleanup pass -/

theorem myersGo_unit (prev : List Nat → List DiffRange)
    (hprev : ∀ ys r, r ∈ prev ys → unitRange r) (x : Nat) :
    ∀ ys r, r ∈ myersGo prev x ys → unitRange r := by
  intro ys
  induction ys with
  | nil =>
    intro r hr
    simp only [myersGo, List.mem_cons] at hr
    rcases hr with rfl | hr
    · exact Or.inr (Or.inl rfl)
    · exact hprev _ _ hr
  | cons y ys ih =>
    intro r hr
    simp only [myersGo] at hr
    by_cases hxy : x = y
    · rw [if_pos hxy] at hr
      rcases List.mem_cons.mp hr with rfl | hr
      · exact Or.inl rfl
      · exact hprev _ _ hr
    · rw [if_neg hxy] at hr
      split at hr
      · rcases List.mem_cons.mp hr with rfl | hr
        · exact Or.inr (Or.inl rfl)
        · exact hprev _ _ hr
      · rcases List.mem_cons.mp hr with rfl | hr
        · exact Or.inr (Or.inr rfl)
        · exact ih r hr

theorem myersDiff_unit : ∀ a b r, r ∈ myersDiff a b → unitRange r := by
  intro a
  induction a with
  | nil =>
    intro b r hr
    simp only [myersDiff, List.mem_map] at hr
    obtain ⟨_, _, rfl⟩ := hr
    exact Or.inr (Or.inr rfl)
  | cons x xs ih =>
    intro b r hr
    exact myersGo_unit (myersDiff xs) (fun ys r h => ih ys r h) x b r hr

theorem myersGo_totals (prev : List Nat → List DiffRange) (xsLen : Nat)
    (hOld : ∀ ys, oldTotal (prev ys) = xsLen)
    (hNew : ∀ ys, newTotal (prev ys) = ys.length) (x : Nat) :
    ∀ ys, oldTotal (myersGo prev x ys) = xsLen + 1 ∧
      newTotal (myersGo prev x ys) = ys.length := by
  intro ys
  induction ys with
  | nil =>
    refine ⟨?_, ?_⟩ <;> simp [myersGo, oldTotal, newTotal, hOld, hNew] <;> omega
  | cons y ys ih =>
    simp only [myersGo]
    by_cases hxy : x = y
    · rw [if_pos hxy]
      refine ⟨?_, ?_⟩ <;> simp [oldTotal, newTotal, hOld, hNew] <;> omega
    · rw [if_neg hxy]
      split <;>
        (refine ⟨?_, ?_⟩ <;>
          simp [oldTotal, newTotal, hOld, hNew, ih.1, ih.2] <;> omega)

theorem myersDiff_totals : ∀ a b, oldTotal (myersDiff a b) = a.length ∧
    newTotal (myersDiff a b) = b.length := by
  intro a
  induction a with
  | nil =>
    intro b
    simp only [myersDiff, List.length_nil]
    induction b with
    | nil => simp [oldTotal, newTotal]
    | cons y ys ihb =>
      simp only [List.map_cons, oldTotal, newTotal, List.length_cons]
      omega
  | cons x xs ih =>
    intro b
    exact myersGo_totals (myersDiff xs) xs.length
      (fun ys => (ih ys).1) (fun ys => (ih ys).2) x b

theorem emitDI_good (d i : Nat) : ∀ r ∈ emitDI d i, goodRange r := by
  intro r hr
  simp only [emitDI, List.mem_append] at hr
  by_cases hd : 0 < d <;> by_cases hi : 0 < i <;>
    simp only [hd, hi, if_pos, if_neg, if_true, if_false, not_false_iff,
      List.mem_singleton, List.not_mem_nil, or_false, false_or] at hr
  · rcases hr with rfl | rfl
    · exact hd
    · exact hi
  · rcases hr with rfl
    exact hd
  · rcases hr with rfl
    exact hi

theorem pushEq_good (l1 l2 : Nat) (h1 : 0 < l1) (h12 : l1 = l2)
    (k : List DiffRange) (hk : ∀ r ∈ k, goodRange r) :
    ∀ r ∈ pushEq l1 l2 k, goodRange r := by
  intro r hr
  match k with
  | [] =>
    simp only [pushEq, List.mem_singleton] at hr
    subst hr
    exact ⟨h1, h12⟩
  | .equal m1 m2 :: tail =>
    simp only [pushEq] at hr
    rcases List.mem_cons.mp hr with rfl | hr2
    · have hm := hk _ (List.mem_cons_self _ _)
      obtain ⟨hm1, hm12⟩ := hm
      exact ⟨by omega, by omega⟩
    · exact hk _ (List.mem_cons_of_mem _ hr2)
  | .delete m :: tail =>
    simp only [pushEq] at hr
    rcases List.mem_cons.mp hr with rfl | hr2
    · exact ⟨h1, h12⟩
    · exact hk _ hr2
  | .insert m :: tail =>
    simp only [pushEq] at hr
    rcases List.mem_cons.mp hr with rfl | hr2
    · exact ⟨h1, h12⟩
    · exact hk _ hr2

theorem compactAux_good : ∀ (l : List DiffRange) (d i : Nat),
    (∀ e1 e2, DiffRange.equal e1 e2 ∈ l → e1 = e2) →
    ∀ r ∈ compactAux l d i, goodRange r := by
  intro l
  induction l with
  | nil => intro d i _ r hr; exact emitDI_good d i r hr
  | cons r0 rest ih =>
    intro d i hbal r hr
    match r0 with
    | .delete dl =>
      simp only [compactAux] at hr
      exact ih (d + dl) i
        (fun e1 e2 h => hbal e1 e2 (List.mem_cons_of_mem _ h)) r hr
    | .insert il =>
      simp only [compactAux] at hr
      exact ih d (i + il)
        (fun e1 e2 h => hbal e1 e2 (List.mem_cons_of_mem _ h)) r hr
    | .equal e1 e2 =>
      simp only [compactAux] at hr
      by_cases hz : e1 = 0 ∧ e2 = 0
      · rw [if_pos hz] at hr
        exact ih d i
          (fun a b h => hbal a b (List.mem_cons_of_mem _ h)) r hr
      · rw [if_neg hz] at hr
        rcases List.mem_append.mp hr with h | h
        · exact emitDI_good _ _ _ h
        · have he : e1 = e2 := hbal e1 e2 (List.mem_cons_self _ _)
          have h1 : 0 < e1 := by omega
          exact pushEq_good e1 e2 h1 he _
            (ih 0 0 (fun a b hh => hbal a b (List.mem_cons_of_mem _ hh))) r h

theorem oldTotal_append : ∀ l1 l2 : List DiffRange,
    oldTotal (l1 ++ l2) = oldTotal l1 + oldTotal l2 := by
  intro l1 l2
  induction l1 with
  | nil => simp [oldTotal]
  | cons r rest ih =>
    cases r with
    | equal a b =>
      show a + oldTotal (rest ++ l2) = a + oldTotal rest + oldTotal l2
      omega
    | delete a =>
      show a + oldTotal (rest ++ l2) = a + oldTotal rest + oldTotal l2
      omega
    | insert a =>
      show oldTotal (rest ++ l2) = oldTotal rest + oldTotal l2
      omega

theorem newTotal_append : ∀ l1 l2 : List DiffRange,
    newTotal (l1 ++ l2) = newTotal l1 + newTotal l2 := by
  intro l1 l2
  induction l1 with
  | nil => simp [newTotal]
  | cons r rest ih =>
    cases r with
    | equal a b =>
      show b + newTotal (rest ++ l2) = b + newTotal rest + newTotal l2
      omega
    | delete a =>
      show newTotal (rest ++ l2) = newTotal rest + newTotal l2
      omega
    | insert a =>
      show a + newTotal (rest ++ l2) = a + newTotal rest + newTotal l2
      omega

theorem emitDI_totals (d i : Nat) :
    oldTotal (emitDI d i) = d ∧ newTotal (emitDI d i) = i := by
  unfold emitDI
  rw [oldTotal_append, newTotal_append]
  by_cases hd : 0 < d <;> by_cases hi : 0 < i <;>
    simp [hd, hi, oldTotal, newTotal] <;> omega

theorem pushEq_totals (l1 l2 : Nat) (k : List DiffRange) :
    oldTotal (pushEq l1 l2 k) = l1 + oldTotal k ∧
    newTotal (pushEq l1 l2 k) = l2 + newTotal k := by
  match k with
  | [] => refine ⟨?_, ?_⟩ <;> (show _ + 0 = _ + 0; rfl)
  | .equal m1 m2 :: tail =>
    refine ⟨?_, ?_⟩
    · show l1 + m1 + oldTotal tail = l1 + (m1 + oldTotal tail)
      omega
    · show l2 + m2 + newTotal tail = l2 + (m2 + newTotal tail)
      omega
  | .delete m :: tail => exact ⟨rfl, rfl⟩
  | .insert m :: tail => exact ⟨rfl, rfl⟩

theorem compactAux_totals : ∀ (l : List DiffRange) (d i : Nat),
    oldTotal (compactAux l d i) = d + oldTotal l ∧
    newTotal (compactAux l d i) = i + newTotal l := by
  intro l
  induction l with
  | nil =>
    intro d i
    simp only [compactAux, oldTotal, newTotal]
    have := emitDI_totals d i
    omega
  | cons r0 rest ih =>
    intro d i
    match r0 with
    | .delete dl =>
      simp only [compactAux, oldTotal, newTotal]
      have := ih (d + dl) i
      omega
    | .insert il =>
      simp only [compactAux, oldTotal, newTotal]
      have := ih d (i + il)
      omega
    | .equal e1 e2 =>
      simp only [compactAux, oldTotal, newTotal]
      by_cases hz : e1 = 0 ∧ e2 = 0
      · rw [if_pos hz]
        have := ih d i
        omega
      · rw [if_neg hz]
        rw [oldTotal_append, newTotal_append]
        have h1 := emitDI_totals d i
        have h2 := pushEq_totals e1 e2 (compactAux rest 0 0)
        have h3 := ih 0 0
        omega

theorem compact_good (l : List DiffRange)
    (hbal : ∀ e1 e2, DiffRange.equal e1 e2 ∈ l → e1 = e2) :
    ∀ r ∈ compact l, goodRange r :=
  compactAux_good l 0 0 hbal

theorem compact_totals (l : List DiffRange) :
    oldTotal (compact l) = oldTotal l ∧ newTotal (compact l) = newTotal l := by
  have := compactAux_totals l 0 0
  unfold compact
  omega

/-! ## Well-formedness of the coalesced edit script -/

theorem mem_of_head? {α : Type} {l : List α} {t : α}
    (h : l.head? = some t) : t ∈ l := by
  cases l with
  | nil => simp at h
  | cons a rest =>
    simp only [List.head?_cons, Option.some.injEq] at h
    subst h
    exact List.mem_cons_self _ _

theorem takeRun_decomp : ∀ l : List DiffRange,
    takeRun l ++ l.drop (takeRun l).length = l := by
  intro l
  induction l with
  | nil => rfl
  | cons r rest ih =>
    match r with
    | .equal a b => rfl
    | .delete a =>
      show DiffRange.delete a :: (takeRun rest ++ rest.drop (takeRun rest).length) =
        DiffRange.delete a :: rest
      rw [ih]
    | .insert a =>
      show DiffRange.insert a :: (takeRun rest ++ rest.drop (takeRun rest).length) =
        DiffRange.insert a :: rest
      rw [ih]

theorem takeRun_totals : ∀ l : List DiffRange,
    oldTotal (takeRun l) = sumDel (takeRun l) ∧
    newTotal (takeRun l) = sumIns (takeRun l) := by
  intro l
  induction l with
  | nil => exact ⟨rfl, rfl⟩
  | cons r rest ih =>
    match r with
    | .equal a b => exact ⟨rfl, rfl⟩
    | .delete a =>
      refine ⟨?_, ?_⟩
      · show a + oldTotal (takeRun rest) = a + sumDel (takeRun rest)
        rw [ih.1]
      · show newTotal (takeRun rest) = sumIns (takeRun rest)
        exact ih.2
    | .insert a =>
      refine ⟨?_, ?_⟩
      · show oldTotal (takeRun rest) = sumDel (takeRun rest)
        exact ih.1
      · show a + newTotal (takeRun rest) = a + sumIns (takeRun rest)
        rw [ih.2]

theorem drop_run_head : ∀ l : List DiffRange,
    l.drop (takeRun l).length = [] ∨
    ∃ e1 e2 rest2, l.drop (takeRun l).length = DiffRange.equal e1 e2 :: rest2 := by
  intro l
  induction l with
  | nil => exact Or.inl rfl
  | cons r rest ih =>
    match r with
    | .equal a b => exact Or.inr ⟨a, b, rest, rfl⟩
    | .delete a =>
      have heq : (DiffRange.delete a :: rest).drop
          (takeRun (DiffRange.delete a :: rest)).length =
          rest.drop (takeRun rest).length := rfl
      rw [heq]
      exact ih
    | .insert a =>
      have heq : (DiffRange.insert a :: rest).drop
          (takeRun (DiffRange.insert a :: rest)).length =
          rest.drop (takeRun rest).length := rfl
      rw [heq]
      exact ih

theorem totals_decomp (l : List DiffRange) :
    oldTotal l = sumDel (takeRun l) + oldTotal (l.drop (takeRun l).length) ∧
    newTotal l = sumIns (takeRun l) + newTotal (l.drop (takeRun l).length) := by
  have h1 := congrArg oldTotal (takeRun_decomp l)
  have h2 := congrArg newTotal (takeRun_decomp l)
  rw [oldTotal_append] at h1
  rw [newTotal_append] at h2
  have h3 := takeRun_totals l
  omega

theorem specWF : ∀ (n : Nat) (l : List DiffRange), l.length ≤ n → ∀ ia ib,
    (∀ r ∈ l, goodRange r) →
    (∀ b ∈ editScriptSpec ia ib l, ia ≤ b.oldStart ∧ ib ≤ b.newStart) ∧
    wfChain (ia + oldTotal l) (ib + newTotal l) (editScriptSpec ia ib l) := by
  intro n
  induction n with
  | zero =>
    intro l hl ia ib _
    rw [List.length_eq_zero.mp (Nat.le_zero.mp hl)]
    exact ⟨by simp [editScriptSpec], by simp [editScriptSpec, wfChain]⟩
  | succ n ih =>
    intro l hl ia ib hg
    match l with
    | [] => exact ⟨by simp [editScriptSpec], by simp [editScriptSpec, wfChain]⟩
    | .equal e1 e2 :: rest =>
      have hlen : rest.length ≤ n := by
        simp only [List.length_cons] at hl
        omega
      have hrec := ih rest hlen (ia + e1) (ib + e2)
        (fun r hr => hg r (List.mem_cons_of_mem _ hr))
      refine ⟨?_, ?_⟩
      · intro b hb
        simp only [editScriptSpec] at hb
        have hb2 := hrec.1 b hb
        exact ⟨by omega, by omega⟩
      · simp only [editScriptSpec]
        have hold : ia + oldTotal (DiffRange.equal e1 e2 :: rest) =
            ia + e1 + oldTotal rest := by
          show ia + (e1 + oldTotal rest) = _
          omega
        have hnew : ib + newTotal (DiffRange.equal e1 e2 :: rest) =
            ib + e2 + newTotal rest := by
          show ib + (e2 + newTotal rest) = _
          omega
        rw [hold, hnew]
        exact hrec.2
    | .delete dl :: rest =>
      have hrunlen : 1 ≤ (takeRun (DiffRange.delete dl :: rest)).length := by
        show 1 ≤ (DiffRange.delete dl :: takeRun rest).length
        simp
      have hL1len : ((DiffRange.delete dl :: rest).drop
          (takeRun (DiffRange.delete dl :: rest)).length).length ≤ n := by
        simp only [List.length_drop, List.length_cons] at hl ⊢
        omega
      have hgood1 : ∀ r ∈ (DiffRange.delete dl :: rest).drop
          (takeRun (DiffRange.delete dl :: rest)).length, goodRange r :=
        fun r hr => hg r (List.mem_of_mem_drop hr)
      have hrec := ih _ hL1len
        (ia + sumDel (takeRun (DiffRange.delete dl :: rest)))
        (ib + sumIns (takeRun (DiffRange.delete dl :: rest))) hgood1
      have hdec := totals_decomp (DiffRange.delete dl :: rest)
      refine ⟨?_, ?_⟩
      · intro b hb
        simp only [editScriptSpec] at hb
        rcases List.mem_cons.mp hb with rfl | hb
        · exact ⟨le_refl _, le_refl _⟩
        · have hb2 := hrec.1 b hb
          exact ⟨by omega, by omega⟩
      · simp only [editScriptSpec]
        refine ⟨⟨Nat.le_add_right _ _, ?_, Nat.le_add_right _ _, ?_⟩,
          ?_, ?_⟩
        · show ia + sumDel (takeRun (DiffRange.delete dl :: rest)) ≤
            ia + oldTotal (DiffRange.delete dl :: rest)
          omega
        · show ib + sumIns (takeRun (DiffRange.delete dl :: rest)) ≤
            ib + newTotal (DiffRange.delete dl :: rest)
          omega
        · intro t ht
          rcases drop_run_head (DiffRange.delete dl :: rest) with hnil |
            ⟨e1, e2, rest2, heq⟩
          · rw [hnil] at ht
            simp [editScriptSpec] at ht
          · rw [heq] at ht
            simp only [editScriptSpec] at ht
            have htm := mem_of_head? ht
            have hrest2len : rest2.length ≤ n := by
              have hlc := congrArg List.length heq
              simp only [List.length_cons] at hlc
              omega
            have hgood2 : ∀ r ∈ rest2, goodRange r := by
              intro r hr
              apply hgood1
              rw [heq]
              exact List.mem_cons_of_mem _ hr
            have hrec2 := ih rest2 hrest2len
              (ia + sumDel (takeRun (DiffRange.delete dl :: rest)) + e1)
              (ib + sumIns (takeRun (DiffRange.delete dl :: rest)) + e2) hgood2
            have hb2 := hrec2.1 t htm
            have hge : goodRange (DiffRange.equal e1 e2) := by
              apply hgood1
              rw [heq]
              exact List.mem_cons_self _ _
            obtain ⟨he1pos, he12⟩ := hge
            refine ⟨?_, ?_⟩
            · show ia + sumDel (takeRun (DiffRange.delete dl :: rest)) < t.oldStart
              omega
            · show ib + sumIns (takeRun (DiffRange.delete dl :: rest)) < t.newStart
              omega
        · have h1 : ia + oldTotal (DiffRange.delete dl :: rest) =
              ia + sumDel (takeRun (DiffRange.delete dl :: rest)) +
                oldTotal ((DiffRange.delete dl :: rest).drop
                  (takeRun (DiffRange.delete dl :: rest)).length) := by
            omega
          have h2 : ib + newTotal (DiffRange.delete dl :: rest) =
              ib + sumIns (takeRun (DiffRange.delete dl :: rest)) +
                newTotal ((DiffRange.delete dl :: rest).drop
                  (takeRun (DiffRange.delete dl :: rest)).length) := by
            omega
          rw [h1, h2]
          exact hrec.2
    | .insert il :: rest =>
      have hrunlen : 1 ≤ (takeRun (DiffRange.insert il :: rest)).length := by
        show 1 ≤ (DiffRange.insert il :: takeRun rest).length
        simp
      have hL1len : ((DiffRange.insert il :: rest).drop
          (takeRun (DiffRange.insert il :: rest)).length).length ≤ n := by
        simp only [List.length_drop, List.length_cons] at hl ⊢
        omega
      have hgood1 : ∀ r ∈ (DiffRange.insert il :: rest).drop
          (takeRun (DiffRange.insert il :: rest)).length, goodRange r :=
        fun r hr => hg r (List.mem_of_mem_drop hr)
      have hrec := ih _ hL1len
        (ia + sumDel (takeRun (DiffRange.insert il :: rest)))
        (ib + sumIns (takeRun (DiffRange.insert il :: rest))) hgood1
      have hdec := totals_decomp (DiffRange.insert il :: rest)
      refine ⟨?_, ?_⟩
      · intro b hb
        simp only [editScriptSpec] at hb
        rcases List.mem_cons.mp hb with rfl | hb
        · exact ⟨le_refl _, le_refl _⟩
        · have hb2 := hrec.1 b hb
          exact ⟨by omega, by omega⟩
      · simp only [editScriptSpec]
        refine ⟨⟨Nat.le_add_right _ _, ?_, Nat.le_add_right _ _, ?_⟩,
          ?_, ?_⟩
        · show ia + sumDel (takeRun (DiffRange.insert il :: rest)) ≤
            ia + oldTotal (DiffRange.insert il :: rest)
          omega
        · show ib + sumIns (takeRun (DiffRange.insert il :: rest)) ≤
            ib + newTotal (DiffRange.insert il :: rest)
          omega
        · intro t ht
          rcases drop_run_head (DiffRange.insert il :: rest) with hnil |
            ⟨e1, e2, rest2, heq⟩
          · rw [hnil] at ht
            simp [editScriptSpec] at ht
          · rw [heq] at ht
            simp only [editScriptSpec] at ht
            have htm := mem_of_head? ht
            have hrest2len : rest2.length ≤ n := by
              have hlc := congrArg List.length heq
              simp only [List.length_cons] at hlc
              omega
            have hgood2 : ∀ r ∈ rest2, goodRange r := by
              intro r hr
              apply hgood1
              rw [heq]
              exact List.mem_cons_of_mem _ hr
            have hrec2 := ih rest2 hrest2len
              (ia + sumDel (takeRun (DiffRange.insert il :: rest)) + e1)
              (ib + sumIns (takeRun (DiffRange.insert il :: rest)) + e2) hgood2
            have hb2 := hrec2.1 t htm
            have hge : goodRange (DiffRange.equal e1 e2) := by
              apply hgood1
              rw [heq]
              exact List.mem_cons_self _ _
            obtain ⟨he1pos, he12⟩ := hge
            refine ⟨?_, ?_⟩
            · show ia + sumDel (takeRun (DiffRange.insert il :: rest)) < t.oldStart
              omega
            · show ib + sumIns (takeRun (DiffRange.insert il :: rest)) < t.newStart
              omega
        · have h1 : ia + oldTotal (DiffRange.insert il :: rest) =
              ia + sumDel (takeRun (DiffRange.insert il :: rest)) +
                oldTotal ((DiffRange.insert il :: rest).drop
                  (takeRun (DiffRange.insert il :: rest)).length) := by
            omega
          have h2 : ib + newTotal (DiffRange.insert il :: rest) =
              ib + sumIns (takeRun (DiffRange.insert il :: rest)) +
                newTotal ((DiffRange.insert il :: rest).drop
                  (takeRun (DiffRange.insert il :: rest)).length) := by
            omega
          rw [h1, h2]
          exact hrec.2

theorem classifyList_length : ∀ (l : List String) (tbl : List String),
    ((classifyList tbl l).2).length = l.length := by
  intro l
  induction l with
  | nil => intro tbl; rfl
  | cons s rest ih =>
    intro tbl
    show ((classifyList (Classifier.classify tbl s).1 rest).2).length + 1 =
      rest.length + 1
    rw [ih]

theorem myersDiff_balanced (a b : List Nat) :
    ∀ e1 e2, DiffRange.equal e1 e2 ∈ myersDiff a b → e1 = e2 := by
  intro e1 e2 h
  rcases myersDiff_unit a b _ h with h1 | h1 | h1
  · injection h1 with h2 h3
    omega
  · exact DiffRange.noConfusion h1
  · exact DiffRange.noConfusion h1

theorem wfChain_tail {aL bL : Nat} {s : EditRange} {rest : List EditRange}
    (h : wfChain aL bL (s :: rest)) : wfChain aL bL rest := h.2.2

theorem wfChain_bounded : ∀ {l : List EditRange} {aL bL : Nat},
    wfChain aL bL l → ∀ s ∈ l, blockBounded aL bL s := by
  intro l
  induction l with
  | nil => intro aL bL _ s hs; simp at hs
  | cons u rest ih =>
    intro aL bL h s hs
    rcases List.mem_cons.mp hs with rfl | hs
    · exact h.1
    · exact ih h.2.2 s hs

theorem wfChain_drop : ∀ (n : Nat) {l : List EditRange} {aL bL : Nat},
    wfChain aL bL l → wfChain aL bL (l.drop n) := by
  intro n
  induction n with
  | zero => intro l aL bL h; exact h
  | succ n ih =>
    intro l aL bL h
    match l with
    | [] => exact trivial
    | s :: rest => exact ih (wfChain_tail h)

theorem wfChain_lt_of_mem : ∀ {rest : List EditRange} {aL bL : Nat}
    (s : EditRange), wfChain aL bL (s :: rest) →
    ∀ t ∈ rest, s.oldEnd < t.oldStart ∧ s.newEnd < t.newStart := by
  intro rest
  induction rest with
  | nil => intro aL bL s _ t ht; simp at ht
  | cons u rest ih =>
    intro aL bL s h t ht
    rcases List.mem_cons.mp ht with rfl | ht
    · exact h.2.1 t rfl
    · have h2 := ih u (wfChain_tail h) t ht
      have hu := h.2.1 u rfl
      obtain ⟨hb1, hb2, hb3, hb4⟩ := (wfChain_tail h).1
      exact ⟨by omega, by omega⟩

theorem diff_lines_wf (old new : String) :
    wfChain (diff_lines old new).a_text.length
      (diff_lines old new).b_text.length
      (diff_lines old new).edit_script := by
  show wfChain (rustLines old).length (rustLines new).length
    (build_edit_script (compact (myersDiff
      (classifyList [] (rustLines old)).2
      (classifyList (classifyList [] (rustLines old)).1 (rustLines new)).2)))
  rw [build_eq_spec]
  have hgood := compact_good
    (myersDiff (classifyList [] (rustLines old)).2
      (classifyList (classifyList [] (rustLines old)).1 (rustLines new)).2)
    (myersDiff_balanced _ _)
  have hw := (specWF
    (compact (myersDiff (classifyList [] (rustLines old)).2
      (classifyList (classifyList [] (rustLines old)).1 (rustLines new)).2)).length
    _ le_rfl 0 0 hgood).2
  have ht := compact_totals (myersDiff (classifyList [] (rustLines old)).2
    (classifyList (classifyList [] (rustLines old)).1 (rustLines new)).2)
  have hm := myersDiff_totals (classifyList [] (rustLines old)).2
    (classifyList (classifyList [] (rustLines old)).1 (rustLines new)).2
  have hl1 := classifyList_length (rustLines old) []
  have hl2 := classifyList_length (rustLines new)
    (classifyList [] (rustLines old)).1
  have hA : 0 + oldTotal (compact (myersDiff (classifyList [] (rustLines old)).2
      (classifyList (classifyList [] (rustLines old)).1 (rustLines new)).2)) =
      (rustLines old).length := by
    omega
  have hB : 0 + newTotal (compact (myersDiff (classifyList [] (rustLines old)).2
      (classifyList (classifyList [] (rustLines old)).1 (rustLines new)).2)) =
      (rustLines new).length := by
    omega
  rw [hA, hB] at hw
  exact hw

/-! ## The hunk-assembly loops -/

theorem calc_end_eq (c aL bL : Nat) (s : EditRange) :
    calc_end c aL bL s.oldEnd s.newEnd =
      (s.oldEnd + postLen aL bL c s, s.newEnd + postLen aL bL c s) := rfl

theorem hunkLoop_spec (aText bText : List String) (c : Nat) :
    ∀ (rest : List EditRange) (script : EditRange) (lines : List Line),
      wfChain aText.length bText.length (script :: rest) →
      ∃ ls last,
        hunkLoop aText bText c script rest
            (script.oldEnd + postLen aText.length bText.length c script)
            (script.newEnd + postLen aText.length bText.length c script)
            lines =
          some (ls, last.oldEnd + postLen aText.length bText.length c last,
            last.newEnd + postLen aText.length bText.length c last, last,
            mergeRun aText.length bText.length c script rest) ∧
        (script :: rest)[mergeRun aText.length bText.length c script rest]? =
          some last := by
  intro rest
  induction rest with
  | nil =>
    intro script lines hwf
    exact ⟨_, script, rfl, rfl⟩
  | cons t rest ih =>
    intro script lines hwf
    have hb := wfChain_bounded hwf t
      (List.mem_cons_of_mem _ (List.mem_cons_self _ _))
    have hgap := hwf.2.1 t rfl
    have haL : ¬ aText.length = 0 := by
      obtain ⟨h1, h2, h3, h4⟩ := hb
      omega
    have hwf2 : wfChain aText.length bText.length (t :: rest) := wfChain_tail hwf
    by_cases hm : mergeCond aText.length bText.length c script t
    · obtain ⟨ls, last, heq, hidx⟩ := ih t
        (lines ++ (sliceGet aText script.oldStart script.oldEnd).map Line.delete
          ++ (sliceGet bText script.newStart script.newEnd).map Line.insert
          ++ ((List.range' script.oldEnd (t.oldStart - script.oldEnd)).zip
              (List.range' script.newEnd (t.newStart - script.newEnd))).filterMap
            fun p => (bText.get? p.2).map Line.context) hwf2
      have hm2 : min t.oldStart (aText.length - 1) - c <
          script.oldEnd + postLen aText.length bText.length c script := hm
      refine ⟨ls, last, ?_, ?_⟩
      · simp only [hunkLoop, if_neg haL]
        rw [if_pos hm2]
        have hc1 : (calc_end c aText.length bText.length t.oldEnd t.newEnd).1 =
            t.oldEnd + postLen aText.length bText.length c t := rfl
        have hc2 : (calc_end c aText.length bText.length t.oldEnd t.newEnd).2 =
            t.newEnd + postLen aText.length bText.length c t := rfl
        rw [hc1, hc2, heq]
        have hmr : mergeRun aText.length bText.length c script (t :: rest) =
            mergeRun aText.length bText.length c t rest + 1 := by
          simp only [mergeRun, if_pos hm]
        rw [hmr]
      · have hmr : mergeRun aText.length bText.length c script (t :: rest) =
            mergeRun aText.length bText.length c t rest + 1 := by
          simp only [mergeRun, if_pos hm]
        rw [hmr]
        simpa using hidx
    · have hm2 : ¬ (min t.oldStart (aText.length - 1) - c <
          script.oldEnd + postLen aText.length bText.length c script) := hm
      refine ⟨lines ++
        (sliceGet aText script.oldStart script.oldEnd).map Line.delete ++
        (sliceGet bText script.newStart script.newEnd).map Line.insert,
        script, ?_, ?_⟩
      · simp only [hunkLoop, if_neg haL]
        rw [if_neg hm2]
        have hmr : mergeRun aText.length bText.length c script (t :: rest) = 0 := by
          simp only [mergeRun, if_neg hm]
        rw [hmr]
      · have hmr : mergeRun aText.length bText.length c script (t :: rest) = 0 := by
          simp only [mergeRun, if_neg hm]
        rw [hmr]
        rfl

theorem mem_of_getElem' {α : Type} : ∀ (l : List α) (n : Nat) (a : α),
    l[n]? = some a → a ∈ l := by
  intro l
  induction l with
  | nil => intro n a h; simp at h
  | cons x rest ih =>
    intro n a h
    match n with
    | 0 =>
      simp only [List.getElem?_cons_zero, Option.some.injEq] at h
      subst h
      exact List.mem_cons_self _ _
    | n + 1 =>
      simp only [List.getElem?_cons_succ] at h
      exact List.mem_cons_of_mem _ (ih n a h)

theorem mergeRun_le (aL bL c : Nat) : ∀ (rest : List EditRange) (s : EditRange),
    mergeRun aL bL c s rest ≤ rest.length := by
  intro rest
  induction rest with
  | nil => intro s; exact Nat.le_refl 0
  | cons t r ih =>
    intro s
    simp only [mergeRun, List.length_cons]
    split
    · have := ih t
      omega
    · omega

theorem countSplits_eq (aL bL c : Nat) :
    ∀ (rest : List EditRange) (s : EditRange),
      countSplits aL bL c (s :: rest) =
        numHunks aL bL c (rest.drop (mergeRun aL bL c s rest)) := by
  intro rest
  induction rest with
  | nil => intro s; rfl
  | cons t r ih =>
    intro s
    by_cases hm : mergeCond aL bL c s t
    · have h1 : mergeRun aL bL c s (t :: r) = mergeRun aL bL c t r + 1 := by
        simp only [mergeRun, if_pos hm]
      have h2 : countSplits aL bL c (s :: t :: r) = countSplits aL bL c (t :: r) := by
        simp only [countSplits, if_pos hm]
        omega
      rw [h1, h2, List.drop_succ_cons, ih t]

    · have h1 : mergeRun aL bL c s (t :: r) = 0 := by
        simp only [mergeRun, if_neg hm]
      have h2 : countSplits aL bL c (s :: t :: r) =
          1 + countSplits aL bL c (t :: r) := by
        simp only [countSplits, if_neg hm]
      rw [h1, h2, List.drop_zero]
      simp [numHunks]
      omega

theorem patchLoopF_spec (aText bText : List String) (c : Nat) :
    ∀ (fuel : Nat) (ss : List EditRange), ss.length ≤ fuel →
      wfChain aText.length bText.length ss →
      ∃ hs, patchLoopF aText bText c fuel ss = some hs ∧
        hs.length = numHunks aText.length bText.length c ss := by
  intro fuel
  induction fuel with
  | zero =>
    intro ss hl _
    rw [List.length_eq_zero.mp (Nat.le_zero.mp hl)]
    exact ⟨[], rfl, by simp [numHunks]⟩
  | succ fuel ih =>
    intro ss hl hwf
    match ss with
    | [] => exact ⟨[], rfl, by simp [numHunks]⟩
    | script :: rest =>
      obtain ⟨ls, last, heq, hidx⟩ := hunkLoop_spec aText bText c rest script
        ((sliceGet bText (script.newStart - c) script.newStart).map Line.context)
        hwf
      have hlast : last ∈ script :: rest := mem_of_getElem' _ _ _ hidx
      have hstart : script.oldStart ≤ last.oldStart ∧
          script.newStart ≤ last.newStart := by
        rcases List.mem_cons.mp hlast with rfl | hmem
        · exact ⟨Nat.le_refl _, Nat.le_refl _⟩
        · have := wfChain_lt_of_mem script hwf last hmem
          have hb := wfChain_bounded hwf script (List.mem_cons_self _ _)
          obtain ⟨hb1, hb2, hb3, hb4⟩ := hb
          omega
      have hg : script.oldStart - c ≤
            last.oldEnd + postLen aText.length bText.length c last ∧
          script.newStart - c ≤
            last.newEnd + postLen aText.length bText.length c last := by
        have hbl := wfChain_bounded hwf last hlast
        obtain ⟨hb1, hb2, hb3, hb4⟩ := hbl
        omega
      have hrest : (rest.drop (mergeRun aText.length bText.length c script rest)).length ≤ fuel := by
        simp only [List.length_cons] at hl
        simp only [List.length_drop]
        omega
      have hwfd : wfChain aText.length bText.length
          (rest.drop (mergeRun aText.length bText.length c script rest)) :=
        wfChain_drop _ (wfChain_tail hwf)
      obtain ⟨hs2, heq2, hlen2⟩ := ih _ hrest hwfd
      refine ⟨⟨⟨if 0 < last.oldEnd + postLen aText.length bText.length c last -
            (script.oldStart - c) then script.oldStart - c + 1
          else script.oldStart - c,
          last.oldEnd + postLen aText.length bText.length c last -
            (script.oldStart - c)⟩,
        ⟨if 0 < last.newEnd + postLen aText.length bText.length c last -
            (script.newStart - c) then script.newStart - c + 1
          else script.newStart - c,
          last.newEnd + postLen aText.length bText.length c last -
            (script.newStart - c)⟩,
        ls ++ (sliceGet bText last.newEnd
          (last.newEnd + postLen aText.length bText.length c last)).map
            Line.context⟩ :: hs2, ?_, ?_⟩
      · simp only [patchLoopF]
        have hc1 : (calc_end c aText.length bText.length script.oldEnd
            script.newEnd).1 =
            script.oldEnd + postLen aText.length bText.length c script := rfl
        have hc2 : (calc_end c aText.length bText.length script.oldEnd
            script.newEnd).2 =
            script.newEnd + postLen aText.length bText.length c script := rfl
        rw [hc1, hc2]
        split
        · rename_i heqn
          rw [heq] at heqn
          exact Option.noConfusion heqn
        · rename_i ls2 e1 e2 last2 n2 heqs
          rw [heq] at heqs
          simp only [Option.some.injEq, Prod.mk.injEq] at heqs
          obtain ⟨h1, h2, h3, h4, h5⟩ := heqs
          subst h1
          subst h2
          subst h3
          subst h4
          subst h5
          rw [if_pos hg]
          split
          · rename_i heqn
            rw [heq2] at heqn
            exact Option.noConfusion heqn
          · rename_i hs3 heqs2
            rw [heq2] at heqs2
            simp only [Option.some.injEq] at heqs2
            subst heqs2
            rfl
      · have hcs := countSplits_eq aText.length bText.length c rest script
        have hn : numHunks aText.length bText.length c (script :: rest) =
            countSplits aText.length bText.length c (script :: rest) + 1 := by
          simp [numHunks]
        rw [List.length_cons, hlen2, hn, hcs]

/-- C2: the whole pipeline is total — for every pair of texts and every
context length, `to_patch` produces a patch, reaching none of the three
potential `usize` underflow faults; and a slice request past the available
length contributes zero lines. -/
theorem to_patch_total :
    (∀ (old new : String) (c : Nat),
      ∃ p, (diff_lines old new).to_patch c = some p) ∧
    (∀ (l : List String) (s e : Nat), l.length < e → sliceGet l s e = []) := by
  constructor
  · intro old new c
    obtain ⟨hs, heq, _⟩ := patchLoopF_spec (diff_lines old new).a_text
      (diff_lines old new).b_text c (diff_lines old new).edit_script.length
      (diff_lines old new).edit_script le_rfl (diff_lines_wf old new)
    refine ⟨⟨none, none, hs⟩, ?_⟩
    unfold DiffLines.to_patch patchLoop
    rw [heq]
    rfl
  · intro l s e h
    unfold sliceGet
    rw [if_neg]
    intro hcon
    omega

/-- Witness for C2's slice clause at a concrete out-of-range request. -/
theorem to_patch_total_witness :
    (∃ p, (diff_lines "a\n" "b\n").to_patch 2 = some p) ∧
    (["x"].length < 3 ∧ sliceGet ["x"] 0 3 = []) :=
  ⟨to_patch_total.1 "a\n" "b\n" 2,
    by decide, to_patch_total.2 ["x"] 0 3 (by decide)⟩

theorem sliceGet_self (l : List String) (x : Nat) : sliceGet l x x = [] := by
  unfold sliceGet
  split
  · simp
  · rfl

theorem postLen_zero (aL bL : Nat) (s : EditRange) : postLen aL bL 0 s = 0 := by
  simp [postLen]

theorem hunkLoop_zero (aText bText : List String) :
    ∀ (rest : List EditRange) (script : EditRange) (lines : List Line),
      wfChain aText.length bText.length (script :: rest) →
      hunkLoop aText bText 0 script rest
          (script.oldEnd + postLen aText.length bText.length 0 script)
          (script.newEnd + postLen aText.length bText.length 0 script) lines =
        some (lines ++
          (sliceGet aText script.oldStart script.oldEnd).map Line.delete ++
          (sliceGet bText script.newStart script.newEnd).map Line.insert,
          script.oldEnd + postLen aText.length bText.length 0 script,
          script.newEnd + postLen aText.length bText.length 0 script,
          script, 0) := by
  intro rest script lines hwf
  match rest with
  | [] => rfl
  | t :: rest2 =>
    have hb := wfChain_bounded hwf t
      (List.mem_cons_of_mem _ (List.mem_cons_self _ _))
    have hgap := hwf.2.1 t rfl
    have haL : ¬ aText.length = 0 := by
      obtain ⟨h1, h2, h3, h4⟩ := hb
      omega
    have hnc : ¬ (min t.oldStart (aText.length - 1) - 0 <
        script.oldEnd + postLen aText.length bText.length 0 script) := by
      rw [postLen_zero]
      obtain ⟨h1, h2, h3, h4⟩ := hb
      omega
    simp only [hunkLoop, if_neg haL]
    rw [if_neg hnc]

theorem patchLoopF_zero_lines (aText bText : List String) :
    ∀ (fuel : Nat) (ss : List EditRange), ss.length ≤ fuel →
      wfChain aText.length bText.length ss →
      ∀ hs, patchLoopF aText bText 0 fuel ss = some hs →
      ∀ hk ∈ hs, ∀ ln ∈ hk.lines,
        (∃ s, ln = Line.delete s) ∨ (∃ s, ln = Line.insert s) := by
  intro fuel
  induction fuel with
  | zero =>
    intro ss hl _ hs heq hk hhk
    rw [List.length_eq_zero.mp (Nat.le_zero.mp hl)] at heq
    injection heq with heq
    rw [← heq] at hhk
    simp at hhk
  | succ fuel ih =>
    intro ss hl hwf hs heq hk hhk
    match ss with
    | [] =>
      injection heq with heq
      rw [← heq] at hhk
      simp at hhk
    | script :: rest =>
      simp only [patchLoopF] at heq
      have hc1 : (calc_end 0 aText.length bText.length script.oldEnd
          script.newEnd).1 =
          script.oldEnd + postLen aText.length bText.length 0 script := rfl
      have hc2 : (calc_end 0 aText.length bText.length script.oldEnd
          script.newEnd).2 =
          script.newEnd + postLen aText.length bText.length 0 script := rfl
      rw [hc1, hc2, hunkLoop_zero aText bText rest script
        ((sliceGet bText (script.newStart - 0) script.newStart).map
          Line.context) hwf] at heq
      rw [Nat.sub_zero, sliceGet_self] at heq
      split at heq
      · rename_i heqn
        exact Option.noConfusion heqn
      · rename_i ls2 e1 e2 last2 n2 heqs
        simp only [Option.some.injEq, Prod.mk.injEq] at heqs
        obtain ⟨hA, hB, hC, hD, hE⟩ := heqs
        subst hA
        subst hB
        subst hC
        subst hD
        subst hE
        split at heq
        · split at heq
          · exact Option.noConfusion heq
          · rename_i hs3 heq3
            injection heq with heq
            rw [← heq] at hhk
            rcases List.mem_cons.mp hhk with rfl | hhk2
            · intro ln hln
              simp only [postLen_zero, Nat.add_zero, sliceGet_self,
                List.map_nil, List.append_nil, List.nil_append,
                List.mem_append] at hln
              rcases hln with hd | hi
              · rcases List.mem_map.mp hd with ⟨s, _, rfl⟩
                exact Or.inl ⟨s, rfl⟩
              · rcases List.mem_map.mp hi with ⟨s, _, rfl⟩
                exact Or.inr ⟨s, rfl⟩
            · have hlen : rest.length ≤ fuel := by
                simp only [List.length_cons] at hl
                omega
              rw [List.drop_zero] at heq3
              exact ih rest hlen (wfChain_tail hwf) hs3 heq3 hk hhk2
        · exact Option.noConfusion heq

/-- C3: with `context_len = 0`, every hunk line is a Delete or an Insert —
no Context line appears. -/
theorem to_patch_zero_no_context (old new : String) (p : Patch)
    (h : (diff_lines old new).to_patch 0 = some p) :
    ∀ hk ∈ p.hunks, ∀ ln ∈ hk.lines,
      (∃ s, ln = Line.delete s) ∨ (∃ s, ln = Line.insert s) := by
  unfold DiffLines.to_patch patchLoop at h
  cases hp : patchLoopF (diff_lines old new).a_text (diff_lines old new).b_text
      0 (diff_lines old new).edit_script.length
      (diff_lines old new).edit_script with
  | none => rw [hp] at h; simp at h
  | some hs =>
    rw [hp] at h
    injection h with h
    rw [← h]
    exact patchLoopF_zero_lines (diff_lines old new).a_text
      (diff_lines old new).b_text _ _ le_rfl (diff_lines_wf old new) hs hp

/-- Witness for C3 at a concrete diff. -/
theorem to_patch_zero_no_context_witness :
    ((diff_lines "a\n" "b\n").to_patch 0 =
      some ⟨none, none, [⟨⟨1, 1⟩, ⟨1, 1⟩,
        [Line.delete "a", Line.insert "b"]⟩]⟩) ∧
    (∀ hk ∈ (Patch.hunks ⟨none, none, [⟨⟨1, 1⟩, ⟨1, 1⟩,
        [Line.delete "a", Line.insert "b"]⟩]⟩), ∀ ln ∈ hk.lines,
      (∃ s, ln = Line.delete s) ∨ (∃ s, ln = Line.insert s)) :=
  ⟨by decide, to_patch_zero_no_context "a\n" "b\n"
    ⟨none, none, [⟨⟨1, 1⟩, ⟨1, 1⟩, [Line.delete "a", Line.insert "b"]⟩]⟩
    (by decide)⟩

theorem mergeCond_mono {aL bL c1 c2 : Nat} (h : c1 ≤ c2) {s t : EditRange}
    (hm : mergeCond aL bL c1 s t) : mergeCond aL bL c2 s t := by
  unfold mergeCond postLen at hm ⊢
  omega

theorem countSplits_mono (aL bL : Nat) {c1 c2 : Nat} (h : c1 ≤ c2) :
    ∀ ss : List EditRange,
      countSplits aL bL c2 ss ≤ countSplits aL bL c1 ss := by
  intro ss
  induction ss with
  | nil => exact Nat.le_refl 0
  | cons s rest ih =>
    match rest with
    | [] => exact Nat.le_refl 0
    | t :: r =>
      have ih2 : countSplits aL bL c2 (t :: r) ≤
          countSplits aL bL c1 (t :: r) := ih
      simp only [countSplits]
      by_cases hm1 : mergeCond aL bL c1 s t
      · rw [if_pos hm1, if_pos (mergeCond_mono h hm1)]
        omega
      · rw [if_neg hm1]
        by_cases hm2 : mergeCond aL bL c2 s t
        · rw [if_pos hm2]
          omega
        · rw [if_neg hm2]
          omega

theorem countSplits_of_large (aText bText : List String) {c : Nat} :
    ∀ ss : List EditRange, wfChain aText.length bText.length ss →
      aText.length ≤ c →
      countSplits aText.length bText.length c ss = 0 := by
  intro ss
  induction ss with
  | nil => intro _ _; rfl
  | cons s rest ih =>
    intro hwf hc
    match rest with
    | [] => rfl
    | t :: r =>
      have hbt := wfChain_bounded hwf t
        (List.mem_cons_of_mem _ (List.mem_cons_self _ _))
      have hgap := hwf.2.1 t rfl
      have hm : mergeCond aText.length bText.length c s t := by
        unfold mergeCond postLen
        obtain ⟨h1, h2, h3, h4⟩ := hbt
        omega
      have ih2 := ih (wfChain_tail hwf) hc
      simp only [countSplits, if_pos hm]
      omega

theorem hunkCount_eq (old new : String) (c : Nat) :
    hunkCount old new c = numHunks (diff_lines old new).a_text.length
      (diff_lines old new).b_text.length c (diff_lines old new).edit_script := by
  obtain ⟨hs, heq, hlen⟩ := patchLoopF_spec (diff_lines old new).a_text
    (diff_lines old new).b_text c (diff_lines old new).edit_script.length
    (diff_lines old new).edit_script le_rfl (diff_lines_wf old new)
  unfold hunkCount DiffLines.to_patch patchLoop
  rw [heq]
  exact hlen

/-- C4: for a fixed pair of texts, the number of hunks never increases with
`context_len`, and from `context_len` at least the number of old lines on,
when there is at least one change, all changes are in a single hunk. -/
theorem hunk_count_monotone_and_single (old new : String) :
    (∀ c1 c2 : Nat, c1 ≤ c2 → hunkCount old new c2 ≤ hunkCount old new c1) ∧
    (∀ c : Nat, (diff_lines old new).a_text.length ≤ c →
      (diff_lines old new).edit_script ≠ [] → hunkCount old new c = 1) := by
  constructor
  · intro c1 c2 h
    rw [hunkCount_eq, hunkCount_eq]
    unfold numHunks
    by_cases he : (diff_lines old new).edit_script.isEmpty = true
    · rw [if_pos he, if_pos he]
    · rw [if_neg he, if_neg he]
      have := countSplits_mono (diff_lines old new).a_text.length
        (diff_lines old new).b_text.length h (diff_lines old new).edit_script
      omega
  · intro c hc hne
    rw [hunkCount_eq]
    unfold numHunks
    rw [if_neg (by simpa using hne)]
    rw [countSplits_of_large (diff_lines old new).a_text
      (diff_lines old new).b_text (diff_lines old new).edit_script
      (diff_lines_wf old new) hc]

/-- Witness for C4 at a concrete two-change diff. -/
theorem hunk_count_monotone_and_single_witness :
    (hunkCount "a\nb\nc\n" "x\nb\nz\n" 1 ≤
      hunkCount "a\nb\nc\n" "x\nb\nz\n" 0) ∧
    ((diff_lines "a\nb\nc\n" "x\nb\nz\n").a_text.length ≤ 3 ∧
      (diff_lines "a\nb\nc\n" "x\nb\nz\n").edit_script ≠ [] ∧
      hunkCount "a\nb\nc\n" "x\nb\nz\n" 3 = 1) :=
  ⟨(hunk_count_monotone_and_single "a\nb\nc\n" "x\nb\nz\n").1 0 1
      (by decide),
    by decide, by decide,
    (hunk_count_monotone_and_single "a\nb\nc\n" "x\nb\nz\n").2 3
      (by decide) (by decide)⟩

/-! ## The line classifier -/

theorem firstIdx_append_mem : ∀ (tbl : List String) (e : List String)
    (s : String), s ∈ tbl → firstIdx (tbl ++ e) s = firstIdx tbl s := by
  intro tbl
  induction tbl with
  | nil => intro e s hs; simp at hs
  | cons t rest ih =>
    intro e s hs
    by_cases ht : t = s
    · simp only [List.cons_append, firstIdx, if_pos ht]
    · simp only [List.cons_append, firstIdx, if_neg ht]
      rcases List.mem_cons.mp hs with rfl | hs2
      · exact absurd rfl ht
      · show firstIdx (rest ++ e) s + 1 = firstIdx rest s + 1
        rw [ih e s hs2]

theorem firstIdx_append_self : ∀ (tbl : List String) (s : String),
    s ∉ tbl → firstIdx (tbl ++ [s]) s = tbl.length := by
  intro tbl
  induction tbl with
  | nil => intro s _; simp [firstIdx]
  | cons t rest ih =>
    intro s hs
    have ht : ¬ t = s := fun h => hs (h ▸ List.mem_cons_self _ _)
    simp only [List.cons_append, firstIdx, if_neg ht, List.length_cons]
    show firstIdx (rest ++ [s]) s + 1 = rest.length + 1
    rw [ih s (fun h => hs (List.mem_cons_of_mem _ h))]

theorem firstIdx_get : ∀ (tbl : List String) (s : String), s ∈ tbl →
    tbl[firstIdx tbl s]? = some s := by
  intro tbl
  induction tbl with
  | nil => intro s hs; simp at hs
  | cons t rest ih =>
    intro s hs
    by_cases ht : t = s
    · simp [firstIdx, if_pos ht, ht]
    · rcases List.mem_cons.mp hs with rfl | hs2
      · exact absurd rfl ht
      · simp only [firstIdx, if_neg ht, List.getElem?_cons_succ]
        exact ih s hs2

theorem firstIdx_inj (tbl : List String) (a b : String) (ha : a ∈ tbl)
    (hb : b ∈ tbl) (h : firstIdx tbl a = firstIdx tbl b) : a = b := by
  have h1 := firstIdx_get tbl a ha
  have h2 := firstIdx_get tbl b hb
  rw [h, h2] at h1
  injection h1 with h1
  exact h1.symm

theorem classifyList_spec : ∀ (l : List String) (tbl : List String),
    (∃ ext, (classifyList tbl l).1 = tbl ++ ext) ∧
    (∀ s ∈ l, s ∈ (classifyList tbl l).1) ∧
    (classifyList tbl l).2 = l.map (firstIdx (classifyList tbl l).1) := by
  intro l
  induction l with
  | nil =>
    intro tbl
    exact ⟨⟨[], by simp [classifyList]⟩, by simp, rfl⟩
  | cons s rest ih =>
    intro tbl
    by_cases hs : s ∈ tbl
    · have hc : Classifier.classify tbl s = (tbl, firstIdx tbl s) := by
        unfold Classifier.classify
        rw [if_pos hs]
      have hstep : classifyList tbl (s :: rest) =
          ((classifyList tbl rest).1,
            firstIdx tbl s :: (classifyList tbl rest).2) := by
        show ((classifyList (Classifier.classify tbl s).1 rest).1,
          (Classifier.classify tbl s).2 ::
            (classifyList (Classifier.classify tbl s).1 rest).2) = _
        rw [hc]
      obtain ⟨⟨ext, hext⟩, hmem, hids⟩ := ih tbl
      rw [hstep]
      refine ⟨⟨ext, hext⟩, ?_, ?_⟩
      · intro x hx
        rcases List.mem_cons.mp hx with rfl | hx2
        · rw [hext]
          exact List.mem_append_left _ hs
        · exact hmem x hx2
      · simp only [List.map_cons]
        rw [hids, hext, firstIdx_append_mem tbl ext s hs]
    · have hc : Classifier.classify tbl s = (tbl ++ [s], tbl.length) := by
        unfold Classifier.classify
        rw [if_neg hs]
      have hstep : classifyList tbl (s :: rest) =
          ((classifyList (tbl ++ [s]) rest).1,
            tbl.length :: (classifyList (tbl ++ [s]) rest).2) := by
        show ((classifyList (Classifier.classify tbl s).1 rest).1,
          (Classifier.classify tbl s).2 ::
            (classifyList (Classifier.classify tbl s).1 rest).2) = _
        rw [hc]
      obtain ⟨⟨ext, hext⟩, hmem, hids⟩ := ih (tbl ++ [s])
      rw [hstep]
      have hsmem : s ∈ (classifyList (tbl ++ [s]) rest).1 := by
        rw [hext]
        exact List.mem_append_left _ (List.mem_append_right _
          (List.mem_singleton.mpr rfl))
      refine ⟨⟨[s] ++ ext, by rw [hext, List.append_assoc]⟩, ?_, ?_⟩
      · intro x hx
        rcases List.mem_cons.mp hx with rfl | hx2
        · exact hsmem
        · exact hmem x hx2
      · simp only [List.map_cons]
        rw [hids, hext, firstIdx_append_mem (tbl ++ [s]) ext s
          (List.mem_append_right _ (List.mem_singleton.mpr rfl)),
          firstIdx_append_self tbl s hs]

theorem classifyList_append : ∀ (l1 l2 : List String) (tbl : List String),
    classifyList tbl (l1 ++ l2) =
      ((classifyList (classifyList tbl l1).1 l2).1,
        (classifyList tbl l1).2 ++
          (classifyList (classifyList tbl l1).1 l2).2) := by
  intro l1
  induction l1 with
  | nil => intro l2 tbl; rfl
  | cons s rest ih =>
    intro l2 tbl
    have hstep : ∀ (l : List String),
        classifyList tbl (s :: l) =
          ((classifyList (Classifier.classify tbl s).1 l).1,
            (Classifier.classify tbl s).2 ::
              (classifyList (Classifier.classify tbl s).1 l).2) :=
      fun _ => rfl
    rw [List.cons_append, hstep (rest ++ l2), hstep rest,
      ih l2 (Classifier.classify tbl s).1]
    rfl

/-- C5: within one `diff_lines` scan (all of old's lines classified before
new's), two lines receive the same id exactly when their contents are equal;
ids are first-occurrence positions in the interning table, so the first
distinct line gets id 0, and classifying old-then-new equals one combined
first-seen scan. -/
theorem classifier_same_id_iff (old new : String) :
    ((classifyList [] (rustLines old ++ rustLines new)).2 =
      (classifyList [] (rustLines old)).2 ++
        (classifyList (classifyList [] (rustLines old)).1
          (rustLines new)).2) ∧
    (∀ (i j : Nat) (a b : String) (x y : Nat),
      (rustLines old ++ rustLines new)[i]? = some a →
      (rustLines old ++ rustLines new)[j]? = some b →
      (classifyList [] (rustLines old ++ rustLines new)).2[i]? = some x →
      (classifyList [] (rustLines old ++ rustLines new)).2[j]? = some y →
      (x = y ↔ a = b)) ∧
    (rustLines old ++ rustLines new ≠ [] →
      (classifyList [] (rustLines old ++ rustLines new)).2[0]? = some 0) := by
  obtain ⟨⟨ext, hext⟩, hmem, hids⟩ :=
    classifyList_spec (rustLines old ++ rustLines new) []
  refine ⟨?_, ?_, ?_⟩
  · rw [classifyList_append]
  · intro i j a b x y hia hjb hix hjy
    rw [hids, List.getElem?_map, hia] at hix
    rw [hids, List.getElem?_map, hjb] at hjy
    injection hix with hix
    injection hjy with hjy
    subst hix
    subst hjy
    constructor
    · intro hxy
      exact firstIdx_inj _ a b
        (hmem a (mem_of_getElem' _ _ _ hia))
        (hmem b (mem_of_getElem' _ _ _ hjb)) hxy
    · intro hab
      rw [hab]
  · intro hne
    cases hall : rustLines old ++ rustLines new with
    | nil => exact absurd hall hne
    | cons s rest =>
      rw [hall] at hids hext
      rw [hids, List.getElem?_map]
      simp only [List.getElem?_cons_zero, Option.map_some]
      have hc : Classifier.classify [] s = ([s], 0) := by
        unfold Classifier.classify
        rw [if_neg (by simp)]
        rfl
      obtain ⟨⟨ext2, hext2⟩, _, _⟩ := classifyList_spec rest [s]
      have hT : (classifyList [] (s :: rest)).1 = [s] ++ ext2 := by
        show (classifyList (Classifier.classify [] s).1 rest).1 = _
        rw [hc]
        exact hext2
      rw [hT]
      simp [firstIdx]

/-- Witness for C5 at a concrete pair with a line shared across sides. -/
theorem classifier_same_id_iff_witness :
    ((1 : Nat) = 1 ↔ "b" = "b") ∧
    (classifyList [] (rustLines "a\nb\n" ++ rustLines "b\nc\n")).2[0]? =
      some 0 :=
  ⟨(classifier_same_id_iff "a\nb\n" "b\nc\n").2.1 1 2 "b" "b" 1 1
      (by decide) (by decide) (by decide) (by decide),
    (classifier_same_id_iff "a\nb\n" "b\nc\n").2.2 (by decide)⟩

/-! ## Rust line splitting -/

theorem stripCR_cons_ne (a : Char) (as : List Char) (h : a ≠ '\r') :
    stripCR (a :: as) = a :: as := by
  unfold stripCR
  split
  · rename_i h2
    injection h2 with h2a h2b
    exact absurd h2a.symm (fun hh => h hh.symm)
  · rfl

theorem linesAux_cons_newline (acc rest : List Char) :
    linesAux acc ('\n' :: rest) = (stripCR acc).reverse :: linesAux [] rest := by
  simp [linesAux]

theorem linesAux_cons_other (acc rest : List Char) (ch : Char)
    (h : ch ≠ '\n') : linesAux acc (ch :: rest) = linesAux (ch :: acc) rest := by
  simp [linesAux, h]

theorem linesAux_append_newline :
    ∀ (cs : List Char) (acc : List Char),
      (cs = [] → acc ≠ [] ∧ acc.head? ≠ some '\r') →
      (∀ ch, cs.getLast? = some ch → ch ≠ '\n' ∧ ch ≠ '\r') →
      linesAux acc (cs ++ ['\n']) = linesAux acc cs := by
  intro cs
  induction cs with
  | nil =>
    intro acc hacc _
    obtain ⟨hne, hhd⟩ := hacc rfl
    cases acc with
    | nil => exact absurd rfl hne
    | cons a as =>
      have ha2 : a ≠ '\r' := by
        intro h
        exact hhd (by rw [h]; rfl)
      rw [List.nil_append, linesAux_cons_newline, stripCR_cons_ne a as ha2]
      rfl
  | cons c cs ih =>
    intro acc hacc hlast
    by_cases hc : c = '\n'
    · subst hc
      cases cs with
      | nil => exact absurd rfl (hlast '\n' rfl).1
      | cons c2 cs2 =>
        rw [List.cons_append, linesAux_cons_newline, linesAux_cons_newline,
          ih [] (fun h => absurd h (by simp))
            (fun ch hch => hlast ch (by rw [← hch]; rfl))]
    · rw [List.cons_append, linesAux_cons_other acc _ c hc,
        linesAux_cons_other acc cs c hc]
      apply ih (c :: acc)
      · intro hcs
        subst hcs
        refine ⟨by simp, ?_⟩
        have hcr := hlast c rfl
        intro h
        injection h with h
        exact hcr.2 h
      · intro ch hch
        apply hlast
        cases cs with
        | nil => simp at hch
        | cons d ds => rw [List.getLast?_cons_cons]; exact hch

theorem rustLines_append_newline (t : String) (hne : t.data ≠ [])
    (hlast : ∀ ch, t.data.getLast? = some ch → ch ≠ '\n' ∧ ch ≠ '\r') :
    rustLines (t ++ "\n") = rustLines t := by
  unfold rustLines
  have hdata : (t ++ "\n").data = t.data ++ ['\n'] := rfl
  rw [hdata, linesAux_append_newline t.data [] (fun h => absurd h hne) hlast]

/-- C10 counterexample: for `t = "a\n"`, `diff_lines(t, t ++ "\n")` does not
compare identical line sequences — the doubled terminator contributes an
empty final line on the new side. -/
theorem lines_trailing_newline_counterexample :
    (diff_lines "a\n" ("a\n" ++ "\n")).a_text ≠
      (diff_lines "a\n" ("a\n" ++ "\n")).b_text := by
  decide

/-- C10 amended: `diff_lines` splits with Rust `str::lines` semantics (one
trailing terminator adds no empty final line, `\r` immediately before `\n`
is stripped); consequently, for every nonempty `t` whose last character is
neither `\n` nor `\r`, `diff_lines(t, t ++ "\n")` compares identical line
sequences, and `"a\r\n"` versus `"a\n"` yield the same line and classify to
the same id. -/
theorem lines_semantics_amended :
    (∀ t : String, t.data ≠ [] →
      (∀ ch, t.data.getLast? = some ch → ch ≠ '\n' ∧ ch ≠ '\r') →
      (diff_lines t (t ++ "\n")).a_text = (diff_lines t (t ++ "\n")).b_text) ∧
    rustLines "a\r\n" = rustLines "a\n" ∧
    (classifyList [] (rustLines "a\r\n" ++ rustLines "a\n")).2 = [0, 0] := by
  refine ⟨?_, by decide, by decide⟩
  intro t hne hlast
  show rustLines t = rustLines (t ++ "\n")
  exact (rustLines_append_newline t hne hlast).symm

/-- Witness for the amended C10 at `t = "a"`. -/
theorem lines_semantics_amended_witness :
    ("a" : String).data ≠ [] ∧
    (diff_lines "a" ("a" ++ "\n")).a_text =
      (diff_lines "a" ("a" ++ "\n")).b_text :=
  ⟨by decide,
    lines_semantics_amended.1 "a" (by decide) (fun ch h => by
      have h2 : some 'a' = some ch := h
      injection h2 with h3
      rw [← h3]
      decide)⟩

end Diffy
